import Mathlib

/-!
Shallow embedding of `verificar.py` (WordPress site checker): the content
version store (`salvar_conteudo` and helpers), the score engine
(`compute_score`), the probe wrappers, and the domain normalizer
(`extrair_dominio`).

Conventions of the embedding:
* Python `bytes` values are `List Nat` (one entry per byte).
* Python `str` values are Lean `String`; the Python string operations used by
  the source (`startswith`, `endswith`, `replace`, `int(...)`, `lower`,
  substring membership) are re-implemented below over `List Char` so that
  they are structurally recursive (hence kernel-evaluable) and provable.
* Clock readings (`time.time()`, `os.path.getmtime`) are integers (seconds).
* The domain directory is a `List FileEntry` in `os.listdir` order; a write
  appends a new entry (or replaces one in place when the name exists).
* A Python function that can raise returns `Except String _`; an argument
  that can be `None` at run time is an `Option`.
* Network / HTML-parsing collaborators (`requests`, `BeautifulSoup`,
  `socket`, `subprocess`) are abstracted as parameters holding their raw
  outcome, `none` meaning the call raised; the wrapper logic around them is
  translated faithfully.
-/

/-! ### Python string primitives on `List Char` -/

/-- Python `s.startswith(pat)` on character lists: `listHasPre pat s`. -/
def listHasPre : List Char → List Char → Bool
  | [], _ => true
  | _ :: _, [] => false
  | a :: as, b :: bs => a == b && listHasPre as bs

/-- Python `pat in s` (substring test) on character lists. -/
def listHasSub (pat : List Char) : List Char → Bool
  | [] => pat.isEmpty
  | c :: rest => listHasPre pat (c :: rest) || listHasSub pat rest

/-- Fuel-driven worker for Python `s.replace(pat, rep)` (all occurrences,
leftmost first, non-overlapping).  The fuel is an upper bound on the length
of `s`; it makes the recursion structural so that the kernel can evaluate
it. -/
def replAllAux (pat rep : List Char) : Nat → List Char → List Char
  | _, [] => []
  | 0, s => s
  | fuel + 1, c :: rest =>
    if pat ≠ [] ∧ listHasPre pat (c :: rest) = true then
      rep ++ replAllAux pat rep fuel (List.drop pat.length (c :: rest))
    else
      c :: replAllAux pat rep fuel rest

/-- Python `s.replace(pat, rep)` for a nonempty `pat` (the source only ever
replaces the nonempty patterns `today + "_"` and `".html"`). -/
def replAll (s pat rep : List Char) : List Char :=
  replAllAux pat rep s.length s

/-- Python `str.lower()` (ASCII case folding, which covers every string the
source lowercases). -/
def listLower (s : List Char) : List Char := s.map Char.toLower

/-- Characters stripped by Python `int(...)` around its argument. -/
def pyWhitespace (c : Char) : Bool :=
  c == ' ' || c == '\t' || c == '\n' || c == '\x0d' || c == '\x0b' || c == '\x0c'

/-- Value of an ASCII decimal digit character. -/
def digitVal (c : Char) : Option Nat :=
  if '0' ≤ c ∧ c ≤ '9' then some (c.toNat - 48) else none

/-- Continuation of a digit group accepted by Python `int`: digits with
single underscores allowed between digits. -/
def parseRest : List Char → Option (List Nat)
  | [] => some []
  | c :: cs =>
    if c = '_' then
      match cs with
      | [] => none
      | d :: ds =>
        match digitVal d with
        | some v => (parseRest ds).map (v :: ·)
        | none => none
    else
      match digitVal c with
      | some v => (parseRest cs).map (v :: ·)
      | none => none

/-- Nonempty digit group accepted by Python `int` (most significant digit
first). -/
def parseDigits : List Char → Option (List Nat)
  | [] => none
  | c :: cs =>
    match digitVal c with
    | some v => (parseRest cs).map (v :: ·)
    | none => none

/-- Numeric value of a digit list, most significant digit first. -/
def digitsVal (l : List Nat) : Nat :=
  l.foldl (fun a d => a * 10 + d) 0

/-- Python `int(s)`: optional surrounding whitespace, optional sign, then a
digit group; `none` when `int` would raise `ValueError`. -/
def pyIntChars (s : List Char) : Option Int :=
  let t := (s.dropWhile pyWhitespace).reverse.dropWhile pyWhitespace |>.reverse
  match t with
  | [] => none
  | c :: r =>
    if c = '+' then (parseDigits r).map (fun l => (digitsVal l : Int))
    else if c = '-' then (parseDigits r).map (fun l => -(digitsVal l : Int))
    else (parseDigits t).map (fun l => (digitsVal l : Int))

/-- Decimal digits of a positive number, most significant first (fuel-driven
so that it evaluates in the kernel; adequate whenever `n ≤ fuel`). -/
def natCharsAux : Nat → Nat → List Char
  | 0, _ => []
  | fuel + 1, n =>
    if n = 0 then [] else natCharsAux fuel (n / 10) ++ [Nat.digitChar (n % 10)]

/-- Decimal rendering of a natural number, as Python `str` renders it. -/
def natStr (n : Nat) : List Char :=
  if n = 0 then ['0'] else natCharsAux n n

/-- Decimal rendering of a Python `int`. -/
def intStr (n : Int) : List Char :=
  if n < 0 then '-' :: natStr n.natAbs else natStr n.natAbs

/-! ### String-level wrappers -/

/-- Python `s.startswith(pat)`. -/
def strHasPre (s pat : String) : Bool := listHasPre pat.data s.data

/-- Python `s.endswith(pat)`. -/
def strEndsW (s pat : String) : Bool := listHasPre pat.data.reverse s.data.reverse

/-- Python `s.replace(pat, rep)`. -/
def strReplace (s pat rep : String) : String := ⟨replAll s.data pat.data rep.data⟩

/-- Python `int(s)` on strings. -/
def pyIntS (s : String) : Option Int := pyIntChars s.data

/-- Python `s.lower()`. -/
def strToLower (s : String) : String := ⟨listLower s.data⟩

/-- Python `pat in s` on strings. -/
def strHasSub (s pat : String) : Bool := listHasSub pat.data s.data

/-! ### MD5 (`hashlib.md5(...).hexdigest()`), RFC 1321 -/

/-- Python `bytes` as a list of byte values. -/
abbrev Bytes := List Nat

/-- Truncation to a 32-bit word. -/
def w32 (n : Nat) : Nat := n % 4294967296

/-- 32-bit left rotation. -/
def rotl32 (x s : Nat) : Nat := w32 ((x <<< s) ||| (x >>> (32 - s)))

/-- MD5 sine-derived constant table `K`. -/
def md5K : List Nat :=
  [0xd76aa478, 0xe8c7b756, 0x242070db, 0xc1bdceee,
   0xf57c0faf, 0x4787c62a, 0xa8304613, 0xfd469501,
   0x698098d8, 0x8b44f7af, 0xffff5bb1, 0x895cd7be,
   0x6b901122, 0xfd987193, 0xa679438e, 0x49b40821,
   0xf61e2562, 0xc040b340, 0x265e5a51, 0xe9b6c7aa,
   0xd62f105d, 0x02441453, 0xd8a1e681, 0xe7d3fbc8,
   0x21e1cde6, 0xc33707d6, 0xf4d50d87, 0x455a14ed,
   0xa9e3e905, 0xfcefa3f8, 0x676f02d9, 0x8d2a4c8a,
   0xfffa3942, 0x8771f681, 0x6d9d6122, 0xfde5380c,
   0xa4beea44, 0x4bdecfa9, 0xf6bb4b60, 0xbebfbc70,
   0x289b7ec6, 0xeaa127fa, 0xd4ef3085, 0x04881d05,
   0xd9d4d039, 0xe6db99e5, 0x1fa27cf8, 0xc4ac5665,
   0xf4292244, 0x432aff97, 0xab9423a7, 0xfc93a039,
   0x655b59c3, 0x8f0ccc92, 0xffeff47d, 0x85845dd1,
   0x6fa87e4f, 0xfe2ce6e0, 0xa3014314, 0x4e0811a1,
   0xf7537e82, 0xbd3af235, 0x2ad7d2bb, 0xeb86d391]

/-- MD5 per-step left-rotation amounts. -/
def md5S : List Nat :=
  [7, 12, 17, 22, 7, 12, 17, 22, 7, 12, 17, 22, 7, 12, 17, 22,
   5, 9, 14, 20, 5, 9, 14, 20, 5, 9, 14, 20, 5, 9, 14, 20,
   4, 11, 16, 23, 4, 11, 16, 23, 4, 11, 16, 23, 4, 11, 16, 23,
   6, 10, 15, 21, 6, 10, 15, 21, 6, 10, 15, 21, 6, 10, 15, 21]

/-- MD5 round function (F, G, H, I by step index). -/
def md5F (i b c d : Nat) : Nat :=
  if i < 16 then (b &&& c) ||| ((b ^^^ 4294967295) &&& d)
  else if i < 32 then (d &&& b) ||| ((d ^^^ 4294967295) &&& c)
  else if i < 48 then b ^^^ c ^^^ d
  else c ^^^ (b ||| (d ^^^ 4294967295))

/-- MD5 message-word schedule. -/
def md5G (i : Nat) : Nat :=
  if i < 16 then i
  else if i < 32 then (5 * i + 1) % 16
  else if i < 48 then (3 * i + 5) % 16
  else (7 * i) % 16

/-- One MD5 step on the state `(a, b, c, d)`. -/
def md5Step (M : List Nat) (st : Nat × Nat × Nat × Nat) (i : Nat) : Nat × Nat × Nat × Nat :=
  let a := st.1
  let b := st.2.1
  let c := st.2.2.1
  let d := st.2.2.2
  let f := w32 (md5F i b c d + a + md5K.getD i 0 + M.getD (md5G i) 0)
  (d, w32 (b + rotl32 f (md5S.getD i 0)), b, c)

/-- MD5 compression of one 16-word block into the running state. -/
def md5Block (st : Nat × Nat × Nat × Nat) (M : List Nat) : Nat × Nat × Nat × Nat :=
  let r := (List.range 64).foldl (md5Step M) st
  (w32 (st.1 + r.1), w32 (st.2.1 + r.2.1), w32 (st.2.2.1 + r.2.2.1), w32 (st.2.2.2 + r.2.2.2))

/-- Bytes to 32-bit little-endian words. -/
def leWords : List Nat → List Nat
  | b0 :: b1 :: b2 :: b3 :: rest =>
      (b0 + 256 * b1 + 65536 * b2 + 16777216 * b3) :: leWords rest
  | _ => []

/-- Fuel-driven split into 64-byte chunks (adequate whenever the fuel bounds
the list length). -/
def chunksAux : Nat → List Nat → List (List Nat)
  | _, [] => []
  | 0, _ => []
  | fuel + 1, l => l.take 64 :: chunksAux fuel (l.drop 64)

/-- Split a byte list into 64-byte chunks. -/
def chunks64 (l : List Nat) : List (List Nat) := chunksAux l.length l

/-- Little-endian byte rendering of `n` on `k` bytes. -/
def leBytes : Nat → Nat → List Nat
  | 0, _ => []
  | k + 1, n => n % 256 :: leBytes k (n / 256)

/-- MD5 padding: `0x80`, zeros to 56 mod 64, 64-bit little-endian bit count. -/
def md5Pad (msg : List Nat) : List Nat :=
  msg ++ [128] ++ List.replicate ((119 - (msg.length % 64)) % 64) 0
      ++ leBytes 8 ((8 * msg.length) % 18446744073709551616)

/-- Lowercase hexadecimal rendering of one byte. -/
def byteHex (b : Nat) : List Char := [Nat.digitChar (b / 16), Nat.digitChar (b % 16)]

/-- MD5 hexdigest of a byte string, as `hashlib.md5(msg).hexdigest()`. -/
def md5hex (msg : Bytes) : String :=
  let st := ((chunks64 (md5Pad msg)).map leWords).foldl md5Block
      (1732584193, 4023233417, 2562383102, 271733878)
  ⟨((leBytes 4 st.1 ++ leBytes 4 st.2.1 ++ leBytes 4 st.2.2.1 ++ leBytes 4 st.2.2.2).map byteHex).flatten⟩

/-- Source `calcular_hash(conteudo)`: the MD5 hexdigest of the content. -/
def calcular_hash (conteudo : Bytes) : String := md5hex conteudo

/-! ### The content version store (`contar_versoes`, `get_last_version_file`,
`salvar_conteudo`) -/

/-- One file of the domain directory: its name, stored bytes, and
modification time (seconds). -/
structure FileEntry where
  name : String
  content : Bytes
  mtime : Int
deriving DecidableEq, Repr

/-- Source `contar_versoes(dominio_path, data_base)`: count the files whose
name starts with the date prefix and ends with `".html"`. -/
def contar_versoes (fs : List FileEntry) (data_base : String) : Nat :=
  fs.countP (fun e => strHasPre e.name data_base && strEndsW e.name ".html")

/-- The body of the `for` loop of `get_last_version_file`: the
`(index, filename)` pair appended for one directory entry, `none` when the
entry is skipped (prefix/suffix mismatch, or `int(...)` raised and the
`except` clause hit `continue`). -/
def parseVersion (data_base arquivo : String) : Option (Int × String) :=
  if strHasPre arquivo data_base && strEndsW arquivo ".html" then
    if arquivo = data_base ++ ".html" then some (0, arquivo)
    else
      match pyIntS (strReplace (strReplace arquivo (data_base ++ "_") "") ".html" "") with
      | some n => some (n, arquivo)
      | none => none
  else none

/-- Source `get_last_version_file(dominio_path, data_base)`: collect the
parsable `(index, name)` pairs in listing order, stable-sort by index
(Python `list.sort(key=...)`), and return the name of the last one. -/
def get_last_version_file (fs : List FileEntry) (data_base : String) : Option String :=
  let versoes := fs.filterMap (fun e => parseVersion data_base e.name)
  if versoes.isEmpty then none
  else ((List.insertionSort (fun a b => a.1 ≤ b.1) versoes).getLast?).map (·.2)

/-- Source `os.path.getmtime` on a file of the domain directory. -/
def getmtime (fs : List FileEntry) (name : String) : Int :=
  ((fs.find? (fun e => e.name == name)).map (·.mtime)).getD 0

/-- Source `open(path, "rb").read()` on a file of the domain directory. -/
def readBytes (fs : List FileEntry) (name : String) : Bytes :=
  ((fs.find? (fun e => e.name == name)).map (·.content)).getD []

/-- Source `open(path, "wb").write(content)`: truncate-or-create the named
file; a new name is appended at the end of the directory listing. -/
def writeFile (fs : List FileEntry) (name : String) (c : Bytes) (t : Int) : List FileEntry :=
  if fs.any (fun e => e.name == name) then
    fs.map (fun e => if e.name == name then ⟨name, c, t⟩ else e)
  else fs ++ [⟨name, c, t⟩]

/-- Source `salvar_conteudo(dominio_path, conteudo)`, with the directory
state, today's date string and the current clock passed explicitly.
`conteudo = none` is a `None` argument (all fetches failed); the branches
that feed it to `md5.update` or `f.write` raise `TypeError`, modeled as
`Except.error`.  Returns `(saved_name_or_none, count_of_today_files)`
together with the directory state after the call. -/
def salvar_conteudo (fs : List FileEntry) (hoje : String) (now : Int)
    (conteudo : Option Bytes) : Except String (Option String × Nat × List FileEntry) :=
  match get_last_version_file fs hoje with
  | some ultimo_arquivo =>
    let mod_time := getmtime fs ultimo_arquivo
    if now - mod_time < 600 then .ok (none, contar_versoes fs hoje, fs)
    else
      let conteudo_existente := readBytes fs ultimo_arquivo
      match conteudo with
      | none => .error "TypeError: md5 update with None"
      | some c =>
        if calcular_hash conteudo_existente = calcular_hash c then
          .ok (none, contar_versoes fs hoje, fs)
        else
          let novo_nome :=
            if ultimo_arquivo = hoje ++ ".html" then hoje ++ "_1.html"
            else
              match pyIntS (strReplace (strReplace ultimo_arquivo (hoje ++ "_") "") ".html" "") with
              | some sufixo => hoje ++ "_" ++ (⟨intStr (sufixo + 1)⟩ : String) ++ ".html"
              | none => hoje ++ "_1.html"
          let fs2 := writeFile fs novo_nome c now
          .ok (some novo_nome, contar_versoes fs2 hoje, fs2)
  | none =>
    match conteudo with
    | none => .error "TypeError: write with None"
    | some c =>
      let novo_nome := hoje ++ ".html"
      let fs2 := writeFile fs novo_nome c now
      .ok (some novo_nome, contar_versoes fs2 hoje, fs2)

/-! ### Probe wrappers

The outcome of each third-party call (`requests.get`, `socket`, `ping`,
`BeautifulSoup` lookups) is a parameter; `none` means the call raised or
timed out.  The wrapper code around those calls is translated from the
source. -/

/-- One HTTP response as the source consumes it: status code and body. -/
structure HttpResp where
  status : Nat
  body : Bytes
deriving DecidableEq, Repr

/-- Source `verificar_site(url)`: five availability attempts (`GET`, `HEAD`,
`GET` with user agent, `GET` with trailing slash, raw socket connect); the
body of the first successful `GET` with status 200 is kept.  Returns
`(online, conteudo)`. -/
def verificar_site (r1 r2 r3 r4 : Option HttpResp) (socket_ok : Bool) :
    Bool × Option Bytes :=
  let b1 := match r1 with | some r => r.status == 200 | none => false
  let b2 := match r2 with | some r => decide (r.status < 400) | none => false
  let b3 := match r3 with | some r => r.status == 200 | none => false
  let b4 := match r4 with | some r => r.status == 200 | none => false
  let c1 : Option Bytes := match r1 with
    | some r => if r.status == 200 then some r.body else none
    | none => none
  let c3 : Option Bytes := match r3 with
    | some r => if r.status == 200 then some r.body else none
    | none => none
  let c4 : Option Bytes := match r4 with
    | some r => if r.status == 200 then some r.body else none
    | none => none
  let conteudo := match c1 with
    | some b => some b
    | none => match c3 with
      | some b => some b
      | none => c4
  (b1 || b2 || b3 || b4 || socket_ok, conteudo)

/-- Source `check_response_time(url)`: elapsed seconds and the response on
success, `(None, None)` when the request raised. -/
def check_response_time (r : Option (Int × HttpResp)) : Option Int × Option HttpResp :=
  match r with
  | some (t, resp) => (some t, some resp)
  | none => (none, none)

/-- Source `check_redirection_chain(url)`: the history URLs of the final
response, `[]` when the request raised. -/
def check_redirection_chain (r : Option (List String)) : List String :=
  match r with
  | some chain => chain
  | none => []

/-- Source `check_ssl_certificate(host)`: `(True, notAfter)` when the TLS
handshake succeeded, `(False, None)` otherwise. -/
def check_ssl_certificate (cert : Option String) : Bool × Option String :=
  match cert with
  | some expiry => (true, some expiry)
  | none => (false, none)

/-- Source `check_dns_resolution(dominio)`: the resolved address list, `[]`
when resolution raised. -/
def check_dns_resolution (answers : Option (List String)) : List String :=
  match answers with
  | some ips => ips
  | none => []

/-- Source `ping_host(dominio)`: `returncode == 0`, `False` when `subprocess`
raised. -/
def ping_host (returncode : Option Int) : Bool :=
  match returncode with
  | some rc => rc == 0
  | none => false

/-- Source `get_content_type(response)`: `headers.get('Content-Type', 'N/A')`
when a response exists, else `'N/A'`. -/
def get_content_type (response : Option (Option String)) : String :=
  match response with
  | some header => header.getD "N/A"
  | none => "N/A"

/-- Source `get_page_title(content)`: the parsed `<title>` text; `'N/A'` when
the parse raised (e.g. `content` is `None`) or no title string exists. -/
def get_page_title (parsed : Option (Option String)) : String :=
  match parsed with
  | some (some title) => title
  | _ => "N/A"

/-- Fuel-driven worker for UTF-8 decoding with `errors='ignore'`:
well-formed sequences decode, ill-formed bytes are dropped.  The fuel is an
upper bound on the byte count, making the recursion structural. -/
def utf8IgnoreAux : Nat → List Nat → List Char
  | _, [] => []
  | 0, _ => []
  | fuel + 1, b :: rest =>
    if b < 128 then Char.ofNat b :: utf8IgnoreAux fuel rest
    else if 194 ≤ b ∧ b ≤ 223 then
      match rest with
      | [] => []
      | b2 :: rest2 =>
        if 128 ≤ b2 ∧ b2 ≤ 191 then
          Char.ofNat ((b - 192) * 64 + (b2 - 128)) :: utf8IgnoreAux fuel rest2
        else utf8IgnoreAux fuel rest
    else if 224 ≤ b ∧ b ≤ 239 then
      match rest with
      | b2 :: b3 :: rest3 =>
        if ((b = 224 ∧ 160 ≤ b2 ∧ b2 ≤ 191) ∨
            (b = 237 ∧ 128 ≤ b2 ∧ b2 ≤ 159) ∨
            (b ≠ 224 ∧ b ≠ 237 ∧ 128 ≤ b2 ∧ b2 ≤ 191)) ∧
           128 ≤ b3 ∧ b3 ≤ 191 then
          Char.ofNat ((b - 224) * 4096 + (b2 - 128) * 64 + (b3 - 128))
            :: utf8IgnoreAux fuel rest3
        else utf8IgnoreAux fuel rest
      | _ => []
    else if 240 ≤ b ∧ b ≤ 244 then
      match rest with
      | b2 :: b3 :: b4 :: rest4 =>
        if ((b = 240 ∧ 144 ≤ b2 ∧ b2 ≤ 191) ∨
            (b = 244 ∧ 128 ≤ b2 ∧ b2 ≤ 143) ∨
            (b ≠ 240 ∧ b ≠ 244 ∧ 128 ≤ b2 ∧ b2 ≤ 191)) ∧
           128 ≤ b3 ∧ b3 ≤ 191 ∧ 128 ≤ b4 ∧ b4 ≤ 191 then
          Char.ofNat ((b - 240) * 262144 + (b2 - 128) * 4096 + (b3 - 128) * 64 + (b4 - 128))
            :: utf8IgnoreAux fuel rest4
        else utf8IgnoreAux fuel rest
      | _ => []
    else utf8IgnoreAux fuel rest

/-- UTF-8 decoding with `errors='ignore'` (Python `bytes.decode`). -/
def utf8Ignore (bs : List Nat) : List Char := utf8IgnoreAux bs.length bs

/-- Source keyword list of `check_error_patterns`. -/
def error_keywords : List String := ["404", "not found", "error", "503", "maintenance"]

/-- Source `check_error_patterns(content)`: keywords found in the lowercased
decoded text; the decode of a `None` content raises, caught into `""`. -/
def check_error_patterns (content : Option Bytes) : List String :=
  let text : List Char :=
    match content with
    | none => []
    | some b => listLower (utf8Ignore b)
  error_keywords.filter (fun w => listHasSub w.data text)

/-- Source `check_robots_txt(url)`: status of `GET <base>/robots.txt` equals
200, `False` when the request raised. -/
def check_robots_txt (status : Option Nat) : Bool :=
  match status with
  | some s => s == 200
  | none => false

/-- Source `check_sitemap_xml(url)`: status of `GET <base>/sitemap.xml`
equals 200, `False` when the request raised. -/
def check_sitemap_xml (status : Option Nat) : Bool :=
  match status with
  | some s => s == 200
  | none => false

/-- Source `check_meta_refresh(content)`: whether a
`<meta http-equiv="refresh">` tag was found; `False` when the parse raised
(e.g. `content` is `None`). -/
def check_meta_refresh (found : Option Bool) : Bool :=
  match found with
  | some b => b
  | none => false

/-! ### The score engine (`compute_score`) -/

/-- Source `compute_score(...)`: the additive 0–100 rubric, translated
branch by branch.  `resp_time` in seconds (absent when the timing probe
failed). -/
def compute_score (online : Bool) (resp_time : Option ℚ) (redir_chain : List String)
    (url : String) (ssl_valid : Bool) (dns_ips : List String) (ping_success : Bool)
    (content_type : String) (title : String) (error_patterns : List String)
    (robots : Bool) (sitemap : Bool) (meta_refresh : Bool) : Nat :=
  (if online then 30 else 0) +
  (match resp_time with
   | none => 0
   | some t => if t < 1 then 10 else if t < 3 then 5 else 0) +
  (if redir_chain.length = 0 then 10 else if redir_chain.length ≤ 2 then 5 else 0) +
  (if strHasPre (strToLower url) "https" then (if ssl_valid then 10 else 0) else 5) +
  (if dns_ips.isEmpty then 0 else 5) +
  (if ping_success then 5 else 0) +
  (if strHasSub (strToLower content_type) "text/html" then 5 else 0) +
  (if title ≠ "N/A" then 5 else 0) +
  (if error_patterns.isEmpty then 5 else 0) +
  (if robots then 5 else 0) +
  (if sitemap then 5 else 0) +
  (if meta_refresh then 0 else 5)

/-! ### `urllib.parse.urlparse` (the parts consumed by `extrair_dominio`)
and `extrair_dominio` -/

/-- Characters admitted in a URL scheme by `urllib.parse`. -/
def schemeChar (c : Char) : Bool :=
  c.isAlpha || c.isDigit || c == '+' || c == '-' || c == '.'

/-- Worker for scheme splitting: consume scheme characters up to a `':'`,
returning the remainder; `none` when a non-scheme character or the end of
the string is reached first. -/
def schemeGo : List Char → Option (List Char)
  | [] => none
  | c :: rest => if c = ':' then some rest else if schemeChar c then schemeGo rest else none

/-- Scheme splitting of `urlsplit`: when the text before the first `':'` is
a nonempty valid scheme starting with a letter, drop `scheme:`; otherwise
the URL is unchanged. -/
def splitScheme (u : List Char) : List Char :=
  match u with
  | [] => []
  | c :: rest =>
    if c.isAlpha then
      match schemeGo (c :: rest) with
      | some after => after
      | none => u
    else u

/-- Parameter splitting of `urlparse`: cut the path at the first `';'` that
occurs inside its last `/`-separated segment. -/
def splitParams (p : List Char) : List Char :=
  let seg := (p.reverse.takeWhile (fun c => ¬(c = '/'))).reverse
  p.take (p.length - seg.length) ++ seg.takeWhile (fun c => ¬(c = ';'))

/-- The `(netloc, path)` pair of `urllib.parse.urlparse`: after the scheme,
`//` introduces the netloc (up to `/`, `?` or `#`); the path runs to the
first `?` or `#` and then loses its parameters. -/
def urlparseNlPath (u : List Char) : List Char × List Char :=
  let rest := splitScheme u
  if listHasPre ['/', '/'] rest then
    let r := rest.drop 2
    let netloc := r.takeWhile (fun c => ¬(c = '/' ∨ c = '?' ∨ c = '#'))
    let path := (r.drop netloc.length).takeWhile (fun c => ¬(c = '?' ∨ c = '#'))
    (netloc, splitParams path)
  else ([], splitParams (rest.takeWhile (fun c => ¬(c = '?' ∨ c = '#'))))

/-- Source `extrair_dominio(url)`: `urlparse(url).netloc`, falling back to
`.path` when the netloc is empty, then one leading `"www."` stripped. -/
def extrair_dominio (url : String) : String :=
  let parsed := urlparseNlPath url.data
  let dominio := if parsed.1.isEmpty then (⟨parsed.2⟩ : String) else (⟨parsed.1⟩ : String)
  if strHasPre dominio "www." then ⟨dominio.data.drop 4⟩ else dominio

/-! ### Store-generated directory states

Within one calendar day, starting from an empty domain directory, the only
states `salvar_conteudo` can produce list the snapshot files in creation
order: index 0 is the unsuffixed `<today>.html`, index `i ≥ 1` is
`<today>_<i>.html`. -/

/-- Name of the snapshot with sequence index `i`. -/
def fileName (hoje : String) (i : Nat) : String :=
  if i = 0 then hoje ++ ".html" else hoje ++ "_" ++ (⟨natStr i⟩ : String) ++ ".html"

/-- Directory entries for contents `es` at consecutive indices from `i`. -/
def denseFrom (hoje : String) (i : Nat) : List (Bytes × Int) → List FileEntry
  | [] => []
  | (c, t) :: es => ⟨fileName hoje i, c, t⟩ :: denseFrom hoje (i + 1) es

/-- A dense directory state: snapshots `es` at indices `0, 1, 2, …` in
creation order (`es` pairs each content with its write time). -/
def denseFS (hoje : String) (es : List (Bytes × Int)) : List FileEntry :=
  denseFrom hoje 0 es

/-- Iterate `salvar_conteudo` over a list of `(clock, content)` calls,
threading the directory state (contents are present, so no call raises). -/
def runSaves (hoje : String) : List FileEntry → List (Int × Bytes) → List FileEntry
  | fs, [] => fs
  | fs, (t, c) :: calls =>
    match salvar_conteudo fs hoje t (some c) with
    | .ok (_, _, fs2) => runSaves hoje fs2 calls
    | .error _ => fs

/-! ### Lemmas about the string primitives -/

theorem listHasPre_append (p r : List Char) : listHasPre p (p ++ r) = true := by
  induction p with
  | nil => rfl
  | cons c cs ih => simp [listHasPre, ih]

theorem mem_of_listHasPre {p s : List Char} (h : listHasPre p s = true) :
    ∀ c ∈ p, c ∈ s := by
  induction p generalizing s with
  | nil => intro c hc; cases hc
  | cons a as ih =>
    cases s with
    | nil => cases h
    | cons b bs =>
      simp only [listHasPre, Bool.and_eq_true, beq_iff_eq] at h
      intro c hc
      rcases List.mem_cons.mp hc with hc | hc
      · exact hc ▸ h.1 ▸ List.mem_cons_self _ _
      · exact List.mem_cons_of_mem _ (ih h.2 c hc)

theorem listHasPre_cons_of_ne {q c : Char} {ps s : List Char} (h : q ≠ c) :
    listHasPre (q :: ps) (c :: s) = false := by
  simp [listHasPre, h]


theorem replAllAux_fuelIrrel (pat rep : List Char) :
    ∀ f1 f2 s, s.length ≤ f1 → s.length ≤ f2 →
      replAllAux pat rep f1 s = replAllAux pat rep f2 s := by
  intro f1
  induction f1 with
  | zero =>
    intro f2 s h1 _
    have : s = [] := List.length_eq_zero.mp (Nat.le_zero.mp h1)
    subst this
    cases f2 <;> rfl
  | succ g ih =>
    intro f2 s h1 h2
    cases s with
    | nil => cases f2 <;> rfl
    | cons c rest =>
      simp only [List.length_cons] at h1 h2
      cases f2 with
      | zero => exact absurd h2 (by omega)
      | succ g2 =>
        simp only [replAllAux]
        split
        · rename_i hc
          have hplen : 1 ≤ pat.length := by
            cases hp : pat with
            | nil => exact absurd hp hc.1
            | cons _ _ => simp
          have hd : (List.drop pat.length (c :: rest)).length ≤ g := by
            simp only [List.length_drop, List.length_cons]
            omega
          have hd2 : (List.drop pat.length (c :: rest)).length ≤ g2 := by
            simp only [List.length_drop, List.length_cons]
            omega
          rw [ih g2 _ hd hd2]
        · have hr : rest.length ≤ g := by omega
          have hr2 : rest.length ≤ g2 := by omega
          rw [ih g2 rest hr hr2]

theorem replAllAux_no_occ (pat rep : List Char) {ch : Char} (hch : ch ∈ pat) :
    ∀ fuel s, ch ∉ s → replAllAux pat rep fuel s = s := by
  intro fuel
  induction fuel with
  | zero => intro s _; cases s <;> rfl
  | succ g ih =>
    intro s hs
    cases s with
    | nil => rfl
    | cons c rest =>
      simp only [replAllAux]
      split
      · rename_i hc
        exact absurd (mem_of_listHasPre hc.2 ch hch) hs
      · rw [ih rest (fun h => hs (List.mem_cons_of_mem _ h))]

theorem replAll_no_occ {pat s : List Char} (rep : List Char) {ch : Char}
    (hch : ch ∈ pat) (hs : ch ∉ s) : replAll s pat rep = s :=
  replAllAux_no_occ pat rep hch _ s hs

theorem replAll_head {pat : List Char} (rep rest : List Char) (hp : pat ≠ []) :
    replAll (pat ++ rest) pat rep = rep ++ replAll rest pat rep := by
  rcases hq : pat with _ | ⟨q, ps⟩
  · exact absurd hq hp
  rw [← hq]
  have hcons : pat ++ rest = q :: (ps ++ rest) := by rw [hq]; simp
  unfold replAll
  rw [hcons]
  simp only [List.length_cons, replAllAux]
  rw [if_pos ⟨hp, by rw [← hcons]; exact listHasPre_append pat rest⟩]
  have hdrop : List.drop pat.length (q :: (ps ++ rest)) = rest := by
    rw [← hcons]; exact List.drop_left pat rest
  rw [hdrop]
  congr 1
  exact replAllAux_fuelIrrel pat rep _ _ rest (by simp) le_rfl

theorem replAll_tail {q : Char} {ps : List Char} (rep : List Char) :
    ∀ a : List Char, q ∉ a → replAll (a ++ (q :: ps)) (q :: ps) rep = a ++ rep := by
  intro a
  induction a with
  | nil =>
    intro _
    simp only [List.nil_append]
    have := @replAll_head (q :: ps) rep [] (by simp)
    rw [List.append_nil] at this
    rw [this]
    simp [replAll, replAllAux]
  | cons c a2 ih =>
    intro ha
    have hqc : q ≠ c := fun h => ha (h ▸ List.mem_cons_self _ _)
    have hcons : (c :: a2) ++ (q :: ps) = c :: (a2 ++ (q :: ps)) := by simp
    unfold replAll
    rw [hcons]
    simp only [List.length_cons, replAllAux]
    rw [if_neg (by
      intro hcond
      have := hcond.2
      rw [listHasPre_cons_of_ne hqc] at this
      exact Bool.false_ne_true this)]
    have hrec : replAllAux (q :: ps) rep (a2 ++ (q :: ps)).length (a2 ++ (q :: ps)) =
        replAll (a2 ++ (q :: ps)) (q :: ps) rep := rfl
    rw [hrec, ih (fun h => ha (List.mem_cons_of_mem _ h))]
    simp

/-! ### Lemmas about decimal rendering and `int(...)` parsing -/

theorem natCharsAux_eq_digits :
    ∀ fuel n, n ≤ fuel → natCharsAux fuel n = ((Nat.digits 10 n).map Nat.digitChar).reverse := by
  intro fuel
  induction fuel with
  | zero =>
    intro n hn
    have : n = 0 := Nat.le_zero.mp hn
    subst this
    simp [natCharsAux]
  | succ g ih =>
    intro n hn
    by_cases h0 : n = 0
    · subst h0; simp [natCharsAux]
    · have hstep : Nat.digits 10 n = n % 10 :: Nat.digits 10 (n / 10) :=
        Nat.digits_def' (by norm_num) (Nat.pos_of_ne_zero h0)
      have hdiv : n / 10 ≤ g := by
        have := Nat.div_lt_self (Nat.pos_of_ne_zero h0) (by norm_num : 1 < 10)
        omega
      simp only [natCharsAux, if_neg h0, hstep, List.map_cons, List.reverse_cons, ih _ hdiv]

theorem natStr_eq_digits {n : Nat} (h0 : n ≠ 0) :
    natStr n = ((Nat.digits 10 n).map Nat.digitChar).reverse := by
  unfold natStr
  rw [if_neg h0]
  exact natCharsAux_eq_digits n n le_rfl

theorem natStr_mem {n : Nat} {c : Char} (hc : c ∈ natStr n) :
    ∃ d, d < 10 ∧ c = Nat.digitChar d := by
  by_cases h0 : n = 0
  · subst h0
    simp [natStr] at hc
    exact ⟨0, by norm_num, by rw [hc]; rfl⟩
  · rw [natStr_eq_digits h0] at hc
    rw [List.mem_reverse, List.mem_map] at hc
    obtain ⟨d, hd, hdc⟩ := hc
    exact ⟨d, Nat.digits_lt_base (by norm_num) hd, hdc.symm⟩

theorem digitVal_digitChar {d : Nat} (hd : d < 10) : digitVal (Nat.digitChar d) = some d := by
  interval_cases d <;> decide

theorem digitChar_not_special {d : Nat} (hd : d < 10) :
    Nat.digitChar d ≠ '_' ∧ Nat.digitChar d ≠ '.' ∧ Nat.digitChar d ≠ '+' ∧
      Nat.digitChar d ≠ '-' ∧ pyWhitespace (Nat.digitChar d) = false ∧
      Nat.digitChar d ≠ '/' ∧ Nat.digitChar d ≠ ':' := by
  interval_cases d <;> decide

theorem natStr_ne_nil (n : Nat) : natStr n ≠ [] := by
  by_cases h0 : n = 0
  · subst h0; simp [natStr]
  · rw [natStr_eq_digits h0]
    simp [Nat.digits_ne_nil_iff_ne_zero.mpr h0]

theorem natStr_no_us (n : Nat) : '_' ∉ natStr n := by
  intro h
  obtain ⟨d, hd, hdc⟩ := natStr_mem h
  exact (digitChar_not_special hd).1 hdc.symm

theorem natStr_no_dot (n : Nat) : '.' ∉ natStr n := by
  intro h
  obtain ⟨d, hd, hdc⟩ := natStr_mem h
  exact (digitChar_not_special hd).2.1 hdc.symm

theorem parseRest_digits : ∀ ds : List Nat, (∀ d ∈ ds, d < 10) →
    parseRest (ds.map Nat.digitChar) = some ds := by
  intro ds
  induction ds with
  | nil => intro _; rfl
  | cons d ds2 ih =>
    intro hds
    have hd : d < 10 := hds d (List.mem_cons_self _ _)
    simp only [List.map_cons]
    rw [parseRest.eq_def]
    simp only [if_neg (digitChar_not_special hd).1, digitVal_digitChar hd,
      ih (fun x hx => hds x (List.mem_cons_of_mem _ hx))]
    rfl

theorem parseDigits_digits {ds : List Nat} (hne : ds ≠ []) (hds : ∀ d ∈ ds, d < 10) :
    parseDigits (ds.map Nat.digitChar) = some ds := by
  cases ds with
  | nil => exact absurd rfl hne
  | cons d ds2 =>
    have hd : d < 10 := hds d (List.mem_cons_self _ _)
    simp only [List.map_cons]
    rw [parseDigits.eq_def]
    simp only [digitVal_digitChar hd,
      parseRest_digits ds2 (fun x hx => hds x (List.mem_cons_of_mem _ hx))]
    rfl

theorem foldr_eq_ofDigits : ∀ l : List Nat,
    List.foldr (fun x y => y * 10 + x) 0 l = Nat.ofDigits 10 l := by
  intro l
  induction l with
  | nil => simp [Nat.ofDigits_nil]
  | cons d l2 ih =>
    simp only [List.foldr_cons, ih, Nat.ofDigits_cons]
    ring

theorem digitsVal_reverse_digits (n : Nat) :
    digitsVal ((Nat.digits 10 n).reverse) = n := by
  unfold digitsVal
  rw [List.foldl_reverse, foldr_eq_ofDigits, Nat.ofDigits_digits]

theorem dropWhile_eq_self_of_all {p : Char → Bool} :
    ∀ {l : List Char}, (∀ c ∈ l, p c = false) → l.dropWhile p = l := by
  intro l h
  cases l with
  | nil => rfl
  | cons c rest => simp [List.dropWhile_cons, h c (List.mem_cons_self _ _)]

theorem natStr_no_ws (n : Nat) : ∀ c ∈ natStr n, pyWhitespace c = false := by
  intro c hc
  obtain ⟨d, hd, hdc⟩ := natStr_mem hc
  exact hdc ▸ (digitChar_not_special hd).2.2.2.2.1

theorem pyIntChars_natStr (n : Nat) : pyIntChars (natStr n) = some (n : Int) := by
  by_cases h0 : n = 0
  · subst h0; decide
  · unfold pyIntChars
    have hnows : ∀ c ∈ natStr n, pyWhitespace c = false := natStr_no_ws n
    have h1 : (natStr n).dropWhile pyWhitespace = natStr n := dropWhile_eq_self_of_all hnows
    have h2 : ((natStr n).reverse.dropWhile pyWhitespace).reverse = natStr n := by
      rw [dropWhile_eq_self_of_all (fun c hc => hnows c (List.mem_reverse.mp hc)),
        List.reverse_reverse]
    rw [h1, h2]
    have hmap : natStr n = ((Nat.digits 10 n).reverse).map Nat.digitChar := by
      rw [natStr_eq_digits h0, List.map_reverse]
    rcases hcons : natStr n with _ | ⟨c, r⟩
    · exact absurd hcons (natStr_ne_nil n)
    · have hcmem : c ∈ natStr n := by rw [hcons]; exact List.mem_cons_self _ _
      obtain ⟨d, hd, hdc⟩ := natStr_mem hcmem
      dsimp only
      rw [if_neg (by rw [hdc]; exact (digitChar_not_special hd).2.2.1),
        if_neg (by rw [hdc]; exact (digitChar_not_special hd).2.2.2.1)]
      rw [← hcons, hmap, parseDigits_digits
        (by simpa using Nat.digits_ne_nil_iff_ne_zero.mpr h0)
        (fun x hx => Nat.digits_lt_base (by norm_num) (List.mem_reverse.mp hx))]
      simp [digitsVal_reverse_digits n]

theorem natStr_inj {a b : Nat} (h : natStr a = natStr b) : a = b := by
  have ha := pyIntChars_natStr a
  have hb := pyIntChars_natStr b
  rw [h, hb] at ha
  exact Int.ofNat_inj.mp (Option.some_injective _ ha).symm

theorem intStr_coe_succ (k : Nat) : intStr ((k : Int) + 1) = natStr (k + 1) := by
  unfold intStr
  rw [if_neg (by omega)]
  congr 1

/-! ### Lemmas about snapshot file names -/

theorem fileName_zero (hoje : String) : fileName hoje 0 = hoje ++ ".html" := by
  simp [fileName]

theorem fileName_data_pos (hoje : String) {i : Nat} (hi : i ≠ 0) :
    (fileName hoje i).data = hoje.data ++ '_' :: (natStr i ++ ['.', 'h', 't', 'm', 'l']) := by
  unfold fileName
  rw [if_neg hi]
  simp only [String.data_append]
  simp

theorem fileName_data_zero (hoje : String) :
    (fileName hoje 0).data = hoje.data ++ ['.', 'h', 't', 'm', 'l'] := by
  rw [fileName_zero, String.data_append]

theorem strHasPre_fileName (hoje : String) (i : Nat) :
    strHasPre (fileName hoje i) hoje = true := by
  unfold strHasPre
  by_cases hi : i = 0
  · subst hi; rw [fileName_data_zero]; exact listHasPre_append _ _
  · rw [fileName_data_pos hoje hi]; exact listHasPre_append _ _

theorem strEndsW_fileName (hoje : String) (i : Nat) :
    strEndsW (fileName hoje i) ".html" = true := by
  unfold strEndsW
  by_cases hi : i = 0
  · subst hi
    rw [fileName_data_zero]
    have : (hoje.data ++ ['.', 'h', 't', 'm', 'l']).reverse =
        (".html" : String).data.reverse ++ hoje.data.reverse := by
      simp
    rw [this]
    exact listHasPre_append _ _
  · rw [fileName_data_pos hoje hi]
    have : (hoje.data ++ '_' :: (natStr i ++ ['.', 'h', 't', 'm', 'l'])).reverse =
        (".html" : String).data.reverse ++ ((natStr i).reverse ++ '_' :: hoje.data.reverse) := by
      simp
    rw [this]
    exact listHasPre_append _ _

theorem fileName_pos_ne (hoje : String) {i : Nat} (hi : i ≠ 0) :
    fileName hoje i ≠ hoje ++ ".html" := by
  intro h
  have hd := congrArg String.data h
  rw [fileName_data_pos hoje hi, String.data_append] at hd
  have h2 : (".html" : String).data = ['.', 'h', 't', 'm', 'l'] := rfl
  rw [h2] at hd
  have := List.append_cancel_left hd
  exact absurd (List.head_eq_of_cons_eq this) (by decide)

theorem fileName_inj (hoje : String) {i j : Nat} (h : fileName hoje i = fileName hoje j) :
    i = j := by
  by_cases hi : i = 0 <;> by_cases hj : j = 0
  · omega
  · subst hi; exact absurd ((fileName_zero hoje ▸ h).symm) (fileName_pos_ne hoje hj)
  · subst hj; exact absurd (fileName_zero hoje ▸ h) (fileName_pos_ne hoje hi)
  · have hd := congrArg String.data h
    rw [fileName_data_pos hoje hi, fileName_data_pos hoje hj] at hd
    have h1 := List.tail_eq_of_cons_eq (List.append_cancel_left hd)
    exact natStr_inj (List.append_cancel_right h1)

theorem parseVersion_fileName_zero (hoje : String) :
    parseVersion hoje (fileName hoje 0) = some (0, fileName hoje 0) := by
  unfold parseVersion
  rw [strHasPre_fileName, strEndsW_fileName]
  simp only [Bool.and_self, if_true]
  rw [if_pos (fileName_zero hoje)]

theorem strReplace_fileName_pos (hoje : String) {i : Nat} (hi : i ≠ 0) :
    strReplace (strReplace (fileName hoje i) (hoje ++ "_") "") ".html" "" = ⟨natStr i⟩ := by
  have hpat : (hoje ++ "_").data = hoje.data ++ ['_'] := by
    rw [String.data_append]
  have hstep1 : strReplace (fileName hoje i) (hoje ++ "_") "" = ⟨natStr i ++ ['.', 'h', 't', 'm', 'l']⟩ := by
    unfold strReplace
    apply String.ext
    show replAll (fileName hoje i).data (hoje ++ "_").data ("" : String).data = _
    rw [fileName_data_pos hoje hi, hpat]
    have hshape : hoje.data ++ '_' :: (natStr i ++ ['.', 'h', 't', 'm', 'l']) =
        (hoje.data ++ ['_']) ++ (natStr i ++ ['.', 'h', 't', 'm', 'l']) := by simp
    rw [hshape, replAll_head _ _ (by simp)]
    rw [@replAll_no_occ (hoje.data ++ ['_']) (natStr i ++ ['.', 'h', 't', 'm', 'l'])
      ("" : String).data '_' (by simp) (by
      intro hmem
      rcases List.mem_append.mp hmem with hmem | hmem
      · exact natStr_no_us i hmem
      · simp at hmem)]
    rfl
  rw [hstep1]
  unfold strReplace
  apply String.ext
  show replAll (natStr i ++ ['.', 'h', 't', 'm', 'l']) (".html" : String).data ("" : String).data
      = natStr i
  have hsuf : (".html" : String).data = '.' :: ['h', 't', 'm', 'l'] := rfl
  rw [hsuf]
  rw [replAll_tail _ (natStr i) (natStr_no_dot i)]
  simp

theorem parseVersion_fileName_pos (hoje : String) {i : Nat} (hi : i ≠ 0) :
    parseVersion hoje (fileName hoje i) = some ((i : Int), fileName hoje i) := by
  unfold parseVersion
  rw [strHasPre_fileName, strEndsW_fileName]
  simp only [Bool.and_self, if_true]
  rw [if_neg (fileName_pos_ne hoje hi)]
  rw [strReplace_fileName_pos hoje hi]
  unfold pyIntS
  have : (⟨natStr i⟩ : String).data = natStr i := rfl
  rw [this, pyIntChars_natStr i]

/-! ### Lemmas about dense (store-generated) directory states -/

theorem parseVersion_fileName (hoje : String) (i : Nat) :
    parseVersion hoje (fileName hoje i) = some ((i : Int), fileName hoje i) := by
  by_cases hi : i = 0
  · subst hi
    simpa using parseVersion_fileName_zero hoje
  · exact parseVersion_fileName_pos hoje hi

/-- The `(index, name)` pairs that `get_last_version_file` collects on a
dense state, in listing order. -/
def idxList (hoje : String) (i : Nat) : List (Bytes × Int) → List (Int × String)
  | [] => []
  | _ :: es => ((i : Int), fileName hoje i) :: idxList hoje (i + 1) es

theorem filterMap_denseFrom (hoje : String) :
    ∀ es i, (denseFrom hoje i es).filterMap (fun e => parseVersion hoje e.name)
      = idxList hoje i es := by
  intro es
  induction es with
  | nil => intro i; rfl
  | cons p es2 ih =>
    intro i
    obtain ⟨c, t⟩ := p
    simp only [denseFrom, idxList, List.filterMap_cons, parseVersion_fileName, ih (i + 1)]

theorem idxList_key_ge (hoje : String) :
    ∀ es i p, p ∈ idxList hoje i es → (i : Int) ≤ p.1 := by
  intro es
  induction es with
  | nil => intro i p hp; cases hp
  | cons q es2 ih =>
    intro i p hp
    rcases List.mem_cons.mp hp with hp | hp
    · rw [hp]
    · have := ih (i + 1) p hp
      push_cast at this ⊢
      omega

theorem idxList_sorted (hoje : String) :
    ∀ es i, List.Sorted (fun a b : Int × String => a.1 ≤ b.1) (idxList hoje i es) := by
  intro es
  induction es with
  | nil => intro i; exact List.sorted_nil
  | cons q es2 ih =>
    intro i
    rw [idxList, List.sorted_cons]
    refine ⟨fun p hp => ?_, ih (i + 1)⟩
    have := idxList_key_ge hoje es2 (i + 1) p hp
    push_cast at this ⊢
    omega

theorem idxList_append (hoje : String) :
    ∀ as bs i, idxList hoje i (as ++ bs) = idxList hoje i as ++ idxList hoje (i + as.length) bs := by
  intro as
  induction as with
  | nil => intro bs i; simp [idxList]
  | cons q as2 ih =>
    intro bs i
    simp only [List.cons_append, idxList, List.length_cons]
    have hgoal : idxList hoje (i + 1) (as2 ++ bs)
        = idxList hoje (i + 1) as2 ++ idxList hoje (i + (as2.length + 1)) bs := by
      rw [ih bs (i + 1), show i + (as2.length + 1) = i + 1 + as2.length from by omega]
    exact congrArg (List.cons _) hgoal

theorem glvf_dense (hoje : String) (es : List (Bytes × Int)) (c : Bytes) (t : Int) :
    get_last_version_file (denseFS hoje (es ++ [(c, t)])) hoje
      = some (fileName hoje es.length) := by
  unfold get_last_version_file denseFS
  rw [filterMap_denseFrom]
  dsimp only
  rw [List.Sorted.insertionSort_eq (idxList_sorted hoje (es ++ [(c, t)]) 0)]
  rw [idxList_append]
  rw [if_neg (by
    cases h : idxList hoje 0 es ++ idxList hoje (0 + es.length) [(c, t)] with
    | nil => simp [idxList] at h
    | cons a l => simp)]
  have hsingle : idxList hoje (0 + es.length) [(c, t)] = [((es.length : Int), fileName hoje es.length)] := by
    simp [idxList]
  rw [hsingle, List.getLast?_concat]
  rfl

theorem find?_denseFrom (hoje : String) (c : Bytes) (t : Int) :
    ∀ es i, List.find? (fun e => e.name == fileName hoje (i + es.length))
      (denseFrom hoje i (es ++ [(c, t)]))
        = some ⟨fileName hoje (i + es.length), c, t⟩ := by
  intro es
  induction es with
  | nil =>
    intro i
    simp only [List.nil_append, List.length_nil, Nat.add_zero, denseFrom]
    rw [List.find?_cons_of_pos _ (by simp)]
  | cons q es2 ih =>
    intro i
    obtain ⟨c2, t2⟩ := q
    simp only [List.cons_append, denseFrom, List.length_cons]
    rw [List.find?_cons_of_neg _ (by
      simp only [beq_iff_eq]
      intro h
      have := fileName_inj hoje h
      omega)]
    have harith : i + (es2.length + 1) = (i + 1) + es2.length := by omega
    rw [harith]
    exact ih (i + 1)

theorem getmtime_dense (hoje : String) (es : List (Bytes × Int)) (c : Bytes) (t : Int) :
    getmtime (denseFS hoje (es ++ [(c, t)])) (fileName hoje es.length) = t := by
  unfold getmtime denseFS
  have := find?_denseFrom hoje c t es 0
  rw [Nat.zero_add] at this
  rw [this]
  rfl

theorem readBytes_dense (hoje : String) (es : List (Bytes × Int)) (c : Bytes) (t : Int) :
    readBytes (denseFS hoje (es ++ [(c, t)])) (fileName hoje es.length) = c := by
  unfold readBytes denseFS
  have := find?_denseFrom hoje c t es 0
  rw [Nat.zero_add] at this
  rw [this]
  rfl

theorem contar_denseFrom (hoje : String) :
    ∀ es i, contar_versoes (denseFrom hoje i es) hoje = es.length := by
  intro es
  induction es with
  | nil => intro i; rfl
  | cons q es2 ih =>
    intro i
    obtain ⟨c, t⟩ := q
    simp only [denseFrom, contar_versoes, List.countP_cons] at ih ⊢
    rw [ih (i + 1)]
    simp [strHasPre_fileName, strEndsW_fileName]

theorem mem_denseFrom_name (hoje : String) :
    ∀ es i e, e ∈ denseFrom hoje i es →
      ∃ j, i ≤ j ∧ j < i + es.length ∧ e.name = fileName hoje j := by
  intro es
  induction es with
  | nil => intro i e he; cases he
  | cons q es2 ih =>
    intro i e he
    obtain ⟨c, t⟩ := q
    rcases List.mem_cons.mp he with he | he
    · exact ⟨i, le_rfl, by simp, by rw [he]⟩
    · obtain ⟨j, h1, h2, h3⟩ := ih (i + 1) e he
      exact ⟨j, by omega, by simp; omega, h3⟩

theorem denseFrom_append (hoje : String) :
    ∀ as bs i, denseFrom hoje i (as ++ bs)
      = denseFrom hoje i as ++ denseFrom hoje (i + as.length) bs := by
  intro as
  induction as with
  | nil => intro bs i; simp [denseFrom]
  | cons q as2 ih =>
    intro bs i
    obtain ⟨c, t⟩ := q
    simp only [List.cons_append, denseFrom, List.length_cons]
    have hgoal : denseFrom hoje (i + 1) (as2 ++ bs)
        = denseFrom hoje (i + 1) as2 ++ denseFrom hoje (i + (as2.length + 1)) bs := by
      rw [ih bs (i + 1), show i + (as2.length + 1) = i + 1 + as2.length from by omega]
    exact congrArg (List.cons _) hgoal

theorem writeFile_denseFS (hoje : String) (es : List (Bytes × Int)) (c : Bytes) (t : Int) :
    writeFile (denseFS hoje es) (fileName hoje es.length) c t
      = denseFS hoje (es ++ [(c, t)]) := by
  unfold writeFile denseFS
  rw [if_neg (by
    intro hany
    obtain ⟨e, he, hname⟩ := List.any_eq_true.mp hany
    obtain ⟨j, _, hj2, hj3⟩ := mem_denseFrom_name hoje es 0 e he
    rw [beq_iff_eq] at hname
    rw [hj3] at hname
    have := fileName_inj hoje hname
    omega)]
  rw [denseFrom_append]
  simp [denseFrom]

/-! ### `salvar_conteudo` on dense states -/

theorem fileName_one (hoje : String) : hoje ++ "_1.html" = fileName hoje 1 := by
  apply String.ext
  rw [fileName_data_pos hoje (by norm_num), String.data_append]
  have h1 : ("_1.html" : String).data = ['_', '1', '.', 'h', 't', 'm', 'l'] := rfl
  have h2 : natStr 1 = ['1'] := rfl
  rw [h1, h2]
  simp

theorem contar_dense_snoc (hoje : String) (es : List (Bytes × Int)) (cl : Bytes) (tl : Int) :
    contar_versoes (denseFS hoje (es ++ [(cl, tl)])) hoje = es.length + 1 := by
  have := contar_denseFrom hoje (es ++ [(cl, tl)]) 0
  simpa using this

theorem salvar_dense_nil (hoje : String) (now : Int) (c : Bytes) :
    salvar_conteudo (denseFS hoje []) hoje now (some c)
      = .ok (some (fileName hoje 0), 1, denseFS hoje [(c, now)]) := by
  unfold salvar_conteudo
  rw [show get_last_version_file (denseFS hoje []) hoje = none from rfl]
  dsimp only
  rw [← fileName_zero hoje]
  have hw : writeFile (denseFS hoje []) (fileName hoje 0) c now = denseFS hoje [(c, now)] := by
    have := writeFile_denseFS hoje [] c now
    simpa using this
  rw [hw]
  have hc : contar_versoes (denseFS hoje [(c, now)]) hoje = 1 := by
    have := contar_denseFrom hoje [(c, now)] 0
    simpa using this
  rw [hc]

theorem salvar_dense_snoc (hoje : String) (es : List (Bytes × Int)) (cl : Bytes) (tl : Int)
    (now : Int) (c : Bytes) :
    salvar_conteudo (denseFS hoje (es ++ [(cl, tl)])) hoje now (some c)
      = if now - tl < 600 then
          .ok (none, es.length + 1, denseFS hoje (es ++ [(cl, tl)]))
        else if calcular_hash cl = calcular_hash c then
          .ok (none, es.length + 1, denseFS hoje (es ++ [(cl, tl)]))
        else
          .ok (some (fileName hoje (es.length + 1)), es.length + 2,
            denseFS hoje (es ++ [(cl, tl), (c, now)])) := by
  unfold salvar_conteudo
  rw [glvf_dense]
  dsimp only
  rw [getmtime_dense, contar_dense_snoc]
  by_cases h1 : now - tl < 600
  · rw [if_pos h1, if_pos h1]
  · rw [if_neg h1, if_neg h1, readBytes_dense]
    by_cases h2 : calcular_hash cl = calcular_hash c
    · rw [if_pos h2, if_pos h2]
    · rw [if_neg h2, if_neg h2]
      have hwrite : ∀ nome, nome = fileName hoje (es.length + 1) →
          writeFile (denseFS hoje (es ++ [(cl, tl)])) nome c now
            = denseFS hoje (es ++ [(cl, tl), (c, now)]) := by
        intro nome hn
        rw [hn, show es.length + 1 = (es ++ [(cl, tl)]).length from by simp,
          writeFile_denseFS hoje (es ++ [(cl, tl)]) c now]
        simp
      have hcount2 : contar_versoes (denseFS hoje (es ++ [(cl, tl), (c, now)])) hoje
          = es.length + 2 := by
        have := contar_denseFrom hoje (es ++ [(cl, tl), (c, now)]) 0
        simpa using this
      by_cases h3 : es.length = 0
      · rw [show fileName hoje es.length = hoje ++ ".html" from by rw [h3, fileName_zero]]
        rw [if_pos rfl]
        rw [fileName_one hoje]
        rw [hwrite (fileName hoje 1) (by rw [h3])]
        rw [hcount2]
        rw [h3]
      · rw [if_neg (fileName_pos_ne hoje h3)]
        rw [strReplace_fileName_pos hoje h3]
        rw [show pyIntS (⟨natStr es.length⟩ : String) = some ((es.length : Int)) from
          pyIntChars_natStr es.length]
        dsimp only
        have hnovo : hoje ++ "_" ++ (⟨intStr ((es.length : Int) + 1)⟩ : String) ++ ".html"
            = fileName hoje (es.length + 1) := by
          rw [intStr_coe_succ]
          unfold fileName
          rw [if_neg (by omega)]
        rw [hnovo, hwrite _ rfl, hcount2]

/-! ### Claim C2: throttled save writes nothing -/

/-- C2: whenever an incumbent snapshot for today exists and its modification
time is less than 600 seconds before the current clock, `salvar_conteudo`
changes nothing on disk and returns `(None, count_of_today_files)` — for any
content argument, including `None`. -/
theorem c2_throttle_no_write (fs : List FileEntry) (hoje : String) (now : Int)
    (conteudo : Option Bytes) (ultimo : String)
    (h1 : get_last_version_file fs hoje = some ultimo)
    (h2 : now - getmtime fs ultimo < 600) :
    salvar_conteudo fs hoje now conteudo = .ok (none, contar_versoes fs hoje, fs) := by
  unfold salvar_conteudo
  rw [h1]
  dsimp only
  rw [if_pos h2]

/-- C2 witness: one snapshot written at time 0, polled again at time 100
(within 5 minutes) with different content: no write, still one file. -/
theorem c2_throttle_no_write_witness :
    get_last_version_file [⟨"2025-06-01.html", [104], 0⟩] "2025-06-01"
        = some "2025-06-01.html" ∧
    (100 : Int) - getmtime [⟨"2025-06-01.html", [104], 0⟩] "2025-06-01.html" < 600 ∧
    salvar_conteudo [⟨"2025-06-01.html", [104], 0⟩] "2025-06-01" 100 (some [104, 105])
      = .ok (none, 1, [⟨"2025-06-01.html", [104], 0⟩]) := by
  refine ⟨by decide, by decide, ?_⟩
  rw [c2_throttle_no_write _ _ _ _ "2025-06-01.html" (by decide) (by decide)]
  rfl

/-! ### Claim C3: unchanged content (equal MD5) writes nothing -/

/-- C3: when an incumbent exists, the re-check threshold has elapsed, and the
MD5 hexdigest of the incumbent's stored bytes equals that of the new
content, `salvar_conteudo` writes nothing and returns
`(None, count_of_today_files)`. -/
theorem c3_same_hash_no_write (fs : List FileEntry) (hoje : String) (now : Int)
    (c : Bytes) (ultimo : String)
    (h1 : get_last_version_file fs hoje = some ultimo)
    (h2 : ¬(now - getmtime fs ultimo < 600))
    (h3 : calcular_hash (readBytes fs ultimo) = calcular_hash c) :
    salvar_conteudo fs hoje now (some c) = .ok (none, contar_versoes fs hoje, fs) := by
  unfold salvar_conteudo
  rw [h1]
  dsimp only
  rw [if_neg h2]
  rw [if_pos h3]

set_option maxRecDepth 40000 in
/-- C3 witness: identical bytes saved again after the threshold elapsed: no
write, count unchanged. -/
theorem c3_same_hash_no_write_witness :
    get_last_version_file [⟨"2025-06-01.html", [104], 0⟩] "2025-06-01"
        = some "2025-06-01.html" ∧
    ¬((700 : Int) - getmtime [⟨"2025-06-01.html", [104], 0⟩] "2025-06-01.html" < 600) ∧
    calcular_hash (readBytes [⟨"2025-06-01.html", [104], 0⟩] "2025-06-01.html")
        = calcular_hash [104] ∧
    salvar_conteudo [⟨"2025-06-01.html", [104], 0⟩] "2025-06-01" 700 (some [104])
      = .ok (none, 1, [⟨"2025-06-01.html", [104], 0⟩]) := by
  refine ⟨by decide, by decide, rfl, ?_⟩
  rw [c3_same_hash_no_write [⟨"2025-06-01.html", [104], 0⟩] "2025-06-01" 700 [104]
    "2025-06-01.html" (by decide) (by decide) (by decide)]
  rfl

/-! ### Claim C4: differing bytes vs differing hashes -/

/-- First message of the classic Wang et al. MD5 collision (128 bytes). -/
def wangA : Bytes :=
  [0xd1, 0x31, 0xdd, 0x02, 0xc5, 0xe6, 0xee, 0xc4, 0x69, 0x3d, 0x9a, 0x06, 0x98, 0xaf, 0xf9, 0x5c,
   0x2f, 0xca, 0xb5, 0x87, 0x12, 0x46, 0x7e, 0xab, 0x40, 0x04, 0x58, 0x3e, 0xb8, 0xfb, 0x7f, 0x89,
   0x55, 0xad, 0x34, 0x06, 0x09, 0xf4, 0xb3, 0x02, 0x83, 0xe4, 0x88, 0x83, 0x25, 0x71, 0x41, 0x5a,
   0x08, 0x51, 0x25, 0xe8, 0xf7, 0xcd, 0xc9, 0x9f, 0xd9, 0x1d, 0xbd, 0xf2, 0x80, 0x37, 0x3c, 0x5b,
   0xd8, 0x82, 0x3e, 0x31, 0x56, 0x34, 0x8f, 0x5b, 0xae, 0x6d, 0xac, 0xd4, 0x36, 0xc9, 0x19, 0xc6,
   0xdd, 0x53, 0xe2, 0xb4, 0x87, 0xda, 0x03, 0xfd, 0x02, 0x39, 0x63, 0x06, 0xd2, 0x48, 0xcd, 0xa0,
   0xe9, 0x9f, 0x33, 0x42, 0x0f, 0x57, 0x7e, 0xe8, 0xce, 0x54, 0xb6, 0x70, 0x80, 0xa8, 0x0d, 0x1e,
   0xc6, 0x98, 0x21, 0xbc, 0xb6, 0xa8, 0x83, 0x93, 0x96, 0xf9, 0x65, 0x2b, 0x6f, 0xf7, 0x2a, 0x70]

/-- Second message of the collision: differs from `wangA` in six bytes yet
has the same MD5 digest. -/
def wangB : Bytes :=
  [0xd1, 0x31, 0xdd, 0x02, 0xc5, 0xe6, 0xee, 0xc4, 0x69, 0x3d, 0x9a, 0x06, 0x98, 0xaf, 0xf9, 0x5c,
   0x2f, 0xca, 0xb5, 0x07, 0x12, 0x46, 0x7e, 0xab, 0x40, 0x04, 0x58, 0x3e, 0xb8, 0xfb, 0x7f, 0x89,
   0x55, 0xad, 0x34, 0x06, 0x09, 0xf4, 0xb3, 0x02, 0x83, 0xe4, 0x88, 0x83, 0x25, 0xf1, 0x41, 0x5a,
   0x08, 0x51, 0x25, 0xe8, 0xf7, 0xcd, 0xc9, 0x9f, 0xd9, 0x1d, 0xbd, 0x72, 0x80, 0x37, 0x3c, 0x5b,
   0xd8, 0x82, 0x3e, 0x31, 0x56, 0x34, 0x8f, 0x5b, 0xae, 0x6d, 0xac, 0xd4, 0x36, 0xc9, 0x19, 0xc6,
   0xdd, 0x53, 0xe2, 0x34, 0x87, 0xda, 0x03, 0xfd, 0x02, 0x39, 0x63, 0x06, 0xd2, 0x48, 0xcd, 0xa0,
   0xe9, 0x9f, 0x33, 0x42, 0x0f, 0x57, 0x7e, 0xe8, 0xce, 0x54, 0xb6, 0x70, 0x80, 0x28, 0x0d, 0x1e,
   0xc6, 0x98, 0x21, 0xbc, 0xb6, 0xa8, 0x83, 0x93, 0x96, 0xf9, 0x65, 0xab, 0x6f, 0xf7, 0x2a, 0x70]

set_option maxRecDepth 100000 in
/-- C4 counterexample: two byte-strings that differ (in six bytes) but share
one MD5 digest.  With the incumbent holding `wangA`, saving `wangB` after
the threshold has elapsed writes nothing: the store dedups by hash, not by
bytes, so "differing bytes ⇒ new version" fails. -/
theorem c4_counterexample :
    wangA ≠ wangB ∧
    salvar_conteudo [⟨"2025-06-01.html", wangA, 0⟩] "2025-06-01" 1000 (some wangB)
      = .ok (none, 1, [⟨"2025-06-01.html", wangA, 0⟩]) := by
  constructor
  · decide
  · unfold salvar_conteudo
    rw [show get_last_version_file [⟨"2025-06-01.html", wangA, 0⟩] "2025-06-01"
        = some "2025-06-01.html" from by decide]
    dsimp only
    rw [if_neg (by decide : ¬((1000 : Int) -
        getmtime [⟨"2025-06-01.html", wangA, 0⟩] "2025-06-01.html" < 600))]
    rw [if_pos (by decide :
      calcular_hash (readBytes [⟨"2025-06-01.html", wangA, 0⟩] "2025-06-01.html")
        = calcular_hash wangB)]
    rfl

/-- C4 (amended): on a store-generated state whose most recent snapshot
holds `cl`, a save of `c` after the threshold has elapsed with a *different
MD5 digest* writes `c` verbatim to the next sequence name
(`fileName hoje (incumbent_index + 1)`, distinct from the incumbent's
name), and the version count grows by exactly 1; with no snapshot for the
day, the unsuffixed `fileName hoje 0` is written. -/
theorem c4_next_version (hoje : String) (es : List (Bytes × Int)) (cl : Bytes) (tl : Int)
    (now : Int) (c : Bytes)
    (h1 : ¬(now - tl < 600)) (h2 : calcular_hash cl ≠ calcular_hash c) :
    salvar_conteudo (denseFS hoje (es ++ [(cl, tl)])) hoje now (some c)
      = .ok (some (fileName hoje (es.length + 1)), (es.length + 1) + 1,
          denseFS hoje (es ++ [(cl, tl), (c, now)])) ∧
    fileName hoje (es.length + 1) ≠ fileName hoje es.length ∧
    salvar_conteudo (denseFS hoje []) hoje now (some c)
      = .ok (some (fileName hoje 0), 0 + 1, denseFS hoje [(c, now)]) := by
  refine ⟨?_, ?_, ?_⟩
  · rw [salvar_dense_snoc, if_neg h1, if_neg h2]
  · intro h
    have := fileName_inj hoje h
    omega
  · rw [salvar_dense_nil]

set_option maxRecDepth 40000 in
/-- C4 witness: after one snapshot of `[104]` at time 0, saving `[105]` at
time 700 (threshold elapsed, different digest) creates `2025-06-01_1.html`
and the count goes from 1 to 2. -/
theorem c4_next_version_witness :
    ¬((700 : Int) - 0 < 600) ∧ calcular_hash [104] ≠ calcular_hash [105] ∧
    salvar_conteudo (denseFS "2025-06-01" [([104], 0)]) "2025-06-01" 700 (some [105])
      = .ok (some (fileName "2025-06-01" 1), 2, denseFS "2025-06-01" [([104], 0), ([105], 700)]) := by
  refine ⟨by decide, by decide, ?_⟩
  have h := (c4_next_version "2025-06-01" [] [104] 0 700 [105] (by decide) (by decide)).1
  simpa using h

/-! ### Claim C1: the score is a total function into [0, 100] -/

/-- C1: `compute_score` is total by construction and, for every combination
of observations, its value lies in `[0, 100]`: the two latency tiers and
the two transport tiers are decided by a single `if`-chain each, so they
cannot be double-counted. -/
theorem c1_score_range (online : Bool) (resp_time : Option ℚ) (redir_chain : List String)
    (url : String) (ssl_valid : Bool) (dns_ips : List String) (ping_success : Bool)
    (content_type : String) (title : String) (error_patterns : List String)
    (robots : Bool) (sitemap : Bool) (meta_refresh : Bool) :
    0 ≤ compute_score online resp_time redir_chain url ssl_valid dns_ips ping_success
        content_type title error_patterns robots sitemap meta_refresh ∧
    compute_score online resp_time redir_chain url ssl_valid dns_ips ping_success
        content_type title error_patterns robots sitemap meta_refresh ≤ 100 := by
  refine ⟨Nat.zero_le _, ?_⟩
  unfold compute_score
  have h1 : (if online = true then 30 else 0) ≤ 30 := by split <;> omega
  have h3 : (if redir_chain.length = 0 then 10 else if redir_chain.length ≤ 2 then 5 else 0)
      ≤ 10 := by split <;> [omega; (split <;> omega)]
  have h4 : (if strHasPre (strToLower url) "https" = true then (if ssl_valid = true then 10 else 0)
      else 5) ≤ 10 := by split <;> [(split <;> omega); omega]
  have h5 : (if dns_ips.isEmpty = true then 0 else 5) ≤ 5 := by split <;> omega
  have h6 : (if ping_success = true then 5 else 0) ≤ 5 := by split <;> omega
  have h7 : (if strHasSub (strToLower content_type) "text/html" = true then 5 else 0) ≤ 5 := by
    split <;> omega
  have h8 : (if title ≠ "N/A" then 5 else 0) ≤ 5 := by split <;> omega
  have h9 : (if error_patterns.isEmpty = true then 5 else 0) ≤ 5 := by split <;> omega
  have h10 : (if robots = true then 5 else 0) ≤ 5 := by split <;> omega
  have h11 : (if sitemap = true then 5 else 0) ≤ 5 := by split <;> omega
  have h12 : (if meta_refresh = true then 0 else 5) ≤ 5 := by split <;> omega
  rcases resp_time with _ | t
  · dsimp only
    omega
  · dsimp only
    have h2 : (if t < 1 then 10 else if t < 3 then 5 else 0) ≤ 10 := by
      split <;> [omega; (split <;> omega)]
    omega

/-! ### Claim C6: score of a fully unreachable site -/

/-- C6 counterexample: with every probe failed (`none` outcomes produce the
sentinel observations: offline, no latency, empty redirect chain, invalid
SSL, no DNS answers, ping failed, `'N/A'` content type and title, no
matched error keywords, robots/sitemap absent, no meta refresh), the score
of an `https` URL is 20, not 0: the empty redirect chain earns 10, the
empty error-keyword list 5, and the absent meta-refresh 5. -/
theorem c6_counterexample :
    compute_score (verificar_site none none none none false).1 (check_response_time none).1
      (check_redirection_chain none) "https://www.exemplo.com.br"
      (check_ssl_certificate none).1 (check_dns_resolution none) (ping_host none)
      (get_content_type none) (get_page_title none) (check_error_patterns none)
      (check_robots_txt none) (check_sitemap_xml none) (check_meta_refresh none) = 20 ∧
    (20 : Nat) ≠ 0 := by
  exact ⟨by decide, by decide⟩

/-- C6 (amended): for the all-probes-failed observation set the score is not
0 but 20 for an `https` URL and 25 otherwise (the flat non-HTTPS transport
credit adds 5 more). -/
theorem c6_unreachable_score (url : String) :
    compute_score false none [] url false [] false "N/A" "N/A" [] false false false
      = if strHasPre (strToLower url) "https" then 20 else 25 := by
  cases h : strHasPre (strToLower url) "https"
  · simp only [compute_score, h]
    decide
  · simp only [compute_score, h]
    decide

/-! ### Claim C7: what failed probes contribute to the score -/

/-- C7 counterexample: a failed redirect probe yields the sentinel `[]`,
which `compute_score` rewards with the full 10 points — the same
observation set scores 10 points more (85
against 75) than one whose redirect probe succeeded with a 3-hop chain, so
a failed probe does not award 0 for its sub-check. -/
theorem c7_counterexample :
    check_redirection_chain none = [] ∧
    compute_score true none (check_redirection_chain none) "http://site.com" false
      ["1.2.3.4"] true "text/html" "Home" [] true true false = 85 ∧
    compute_score true none ["http://a.com", "http://b.com", "http://c.com"] "http://site.com"
      false ["1.2.3.4"] true "text/html" "Home" [] true true false = 75 := by
  exact ⟨rfl, by decide, by decide⟩

/-- C7 (amended): collector failures produce sentinel observations
(`[]`, `[]`, `False` for the redirect, error-keyword and meta-refresh
probes); the scorer treats those three sentinels as best-case values worth
10 + 5 + 5 points, so an observation set in which these three probes all
failed scores at least 20 whatever the other observations are (an absent
response time, by contrast, does award 0). -/
theorem c7_failed_probe_points (online : Bool) (url : String) (ssl_valid : Bool)
    (dns_ips : List String) (ping_success : Bool) (content_type title : String)
    (robots sitemap : Bool) :
    check_redirection_chain none = [] ∧ check_error_patterns none = [] ∧
    check_meta_refresh none = false ∧
    20 ≤ compute_score online none (check_redirection_chain none) url ssl_valid dns_ips
        ping_success content_type title (check_error_patterns none) robots sitemap
        (check_meta_refresh none) := by
  refine ⟨rfl, rfl, rfl, ?_⟩
  show 20 ≤ compute_score online none [] url ssl_valid dns_ips ping_success content_type
    title [] robots sitemap false
  unfold compute_score
  have h3 : (if ([] : List String).length = 0 then 10
      else if ([] : List String).length ≤ 2 then 5 else 0) = 10 := by decide
  have h9 : (if ([] : List String).isEmpty = true then 5 else 0) = 5 := by decide
  have h12 : (if false = true then 0 else 5) = 5 := by decide
  rw [h3, h9, h12]
  omega

/-! ### Claim C8: saving empty or absent content -/

/-- C8 counterexample: when every availability probe fails,
`verificar_site` yields `conteudo = None`; feeding that to
`salvar_conteudo` on an empty domain directory raises a `TypeError`
(`f.write(None)`), so the save does *not* complete without raising. -/
theorem c8_counterexample :
    verificar_site none none none none false = (false, none) ∧
    salvar_conteudo [] "2025-06-01" 0 ((verificar_site none none none none false).2)
      = .error "TypeError: write with None" := by
  exact ⟨rfl, rfl⟩

/-- C8 (amended): with *empty* content (`b""`), `salvar_conteudo` always
returns without raising, and whenever it does write it produces a valid
zero-length snapshot; with *absent* content (`None`) the hash comparison or
the write raises a `TypeError` instead (see the counterexample). -/
theorem c8_empty_content_ok (fs : List FileEntry) (hoje : String) (now : Int) :
    ∃ r, salvar_conteudo fs hoje now (some []) = .ok r ∧
      (∀ name cnt fs2, r = (some name, cnt, fs2) → (⟨name, [], now⟩ : FileEntry) ∈ fs2) := by
  have hmem : ∀ fsx name, (⟨name, ([] : Bytes), now⟩ : FileEntry) ∈ writeFile fsx name [] now := by
    intro fsx name
    unfold writeFile
    split
    · rename_i hany
      obtain ⟨e, he, hname⟩ := List.any_eq_true.mp hany
      refine List.mem_map.mpr ⟨e, he, ?_⟩
      rw [if_pos hname]
    · exact List.mem_append_right _ (List.mem_singleton_self _)
  unfold salvar_conteudo
  cases hg : get_last_version_file fs hoje with
  | some ultimo =>
    dsimp only
    by_cases h1 : now - getmtime fs ultimo < 600
    · rw [if_pos h1]
      exact ⟨_, rfl, by intro name cnt fs2 h; cases h⟩
    · rw [if_neg h1]
      by_cases h2 : calcular_hash (readBytes fs ultimo) = calcular_hash []
      · rw [if_pos h2]
        exact ⟨_, rfl, by intro name cnt fs2 h; cases h⟩
      · rw [if_neg h2]
        refine ⟨_, rfl, ?_⟩
        intro name cnt fs2 h
        simp only [Prod.mk.injEq, Option.some.injEq] at h
        obtain ⟨h1, _, h3⟩ := h
        subst h1
        subst h3
        exact hmem fs _
  | none =>
    dsimp only
    refine ⟨_, rfl, ?_⟩
    intro name cnt fs2 h
    simp only [Prod.mk.injEq, Option.some.injEq] at h
    obtain ⟨h1, _, h3⟩ := h
    subst h1
    subst h3
    exact hmem fs _

/-! ### Claim C9: files with malformed suffixes -/

theorem parseVersion_snd {data_base arquivo : String} {p : Int × String}
    (h : parseVersion data_base arquivo = some p) : p.2 = arquivo := by
  unfold parseVersion at h
  split at h
  · split at h
    · exact (congrArg Prod.snd (Option.some_injective _ h)).symm ▸ rfl
    · split at h
      · exact (congrArg Prod.snd (Option.some_injective _ h)).symm ▸ rfl
      · cases h
  · cases h

/-- C9 counterexample: a file whose today-prefixed `.html` name carries a
non-integer suffix is skipped in the incumbent ordering, but it *is*
included in the version count: adding `2025-06-01_abc.html` raises the
count from 1 to 2 instead of being ignored. -/
theorem c9_counterexample :
    contar_versoes [⟨"2025-06-01.html", [104], 0⟩, ⟨"2025-06-01_abc.html", [105], 0⟩]
        "2025-06-01" = 2 ∧
    contar_versoes [⟨"2025-06-01.html", [104], 0⟩] "2025-06-01" = 1 ∧
    get_last_version_file [⟨"2025-06-01.html", [104], 0⟩, ⟨"2025-06-01_abc.html", [105], 0⟩]
        "2025-06-01" = some "2025-06-01.html" := by
  exact ⟨by decide, by decide, by decide⟩

/-- C9 (amended): a file whose name matches today's prefix and the `.html`
extension but whose suffix `int(...)` parse fails never crashes the store
(every operation here is a total function): it is skipped by the
`except: continue` of `get_last_version_file`, hence never selected as the
incumbent, and it stays on disk — but `contar_versoes` counts it, since
counting only tests the prefix and the extension. -/
theorem c9_malformed_suffix (hoje name : String) (c : Bytes) (t : Int)
    (hpre : strHasPre name hoje = true) (hsuf : strEndsW name ".html" = true)
    (hne : name ≠ hoje ++ ".html")
    (hint : pyIntS (strReplace (strReplace name (hoje ++ "_") "") ".html" "") = none) :
    parseVersion hoje name = none ∧
    (∀ fs : List FileEntry, get_last_version_file fs hoje ≠ some name) ∧
    (∀ es1 es2 : List FileEntry,
      contar_versoes (es1 ++ ⟨name, c, t⟩ :: es2) hoje
        = contar_versoes (es1 ++ es2) hoje + 1) := by
  have hpv : parseVersion hoje name = none := by
    unfold parseVersion
    rw [hpre, hsuf]
    simp only [Bool.and_self, if_true]
    rw [if_neg hne, hint]
  refine ⟨hpv, ?_, ?_⟩
  · intro fs h
    unfold get_last_version_file at h
    dsimp only at h
    split at h
    · cases h
    · obtain ⟨p, hp1, hp2⟩ := Option.map_eq_some'.mp h
      have hpmem : p ∈ List.insertionSort (fun a b : Int × String => a.1 ≤ b.1)
          (fs.filterMap (fun e => parseVersion hoje e.name)) := by
        obtain ⟨hne2, hlast⟩ := List.mem_getLast?_eq_getLast hp1
        rw [hlast]
        exact List.getLast_mem _
      rw [List.mem_insertionSort] at hpmem
      obtain ⟨e, _, hpe⟩ := List.mem_filterMap.mp hpmem
      have := parseVersion_snd hpe
      rw [hp2] at this
      rw [← this] at hpe
      rw [hpv] at hpe
      cases hpe
  · intro es1 es2
    unfold contar_versoes
    rw [List.countP_append, List.countP_append, List.countP_cons]
    have : (strHasPre (⟨name, c, t⟩ : FileEntry).name hoje
        && strEndsW (⟨name, c, t⟩ : FileEntry).name ".html") = true := by
      rw [show (⟨name, c, t⟩ : FileEntry).name = name from rfl, hpre, hsuf]
      rfl
    rw [this]
    norm_num
    omega

/-- C9 witness: the malformed file `2025-06-01_abc.html` is never the
incumbent yet adds 1 to the version count. -/
theorem c9_malformed_suffix_witness :
    strHasPre "2025-06-01_abc.html" "2025-06-01" = true ∧
    strEndsW "2025-06-01_abc.html" ".html" = true ∧
    "2025-06-01_abc.html" ≠ "2025-06-01" ++ ".html" ∧
    pyIntS (strReplace (strReplace "2025-06-01_abc.html" ("2025-06-01" ++ "_") "") ".html" "")
      = none ∧
    parseVersion "2025-06-01" "2025-06-01_abc.html" = none ∧
    get_last_version_file [⟨"2025-06-01_abc.html", [105], 0⟩] "2025-06-01"
      ≠ some "2025-06-01_abc.html" ∧
    contar_versoes ([⟨"2025-06-01.html", [104], 0⟩] ++ ⟨"2025-06-01_abc.html", [105], 0⟩ :: [])
        "2025-06-01"
      = contar_versoes ([⟨"2025-06-01.html", [104], 0⟩] ++ []) "2025-06-01" + 1 := by
  have h := c9_malformed_suffix "2025-06-01" "2025-06-01_abc.html" [105] 0
    (by decide) (by decide) (by decide) (by decide)
  exact ⟨by decide, by decide, by decide, by decide, h.1, h.2.1 _, h.2.2 _ _⟩

/-! ### Claim C10: the domain identifier -/

theorem takeWhile_all {p : Char → Bool} :
    ∀ {l : List Char}, (∀ c ∈ l, p c = true) → l.takeWhile p = l := by
  intro l
  induction l with
  | nil => intro _; rfl
  | cons c rest ih =>
    intro h
    rw [List.takeWhile_cons, if_pos (h c (List.mem_cons_self _ _)),
      ih (fun x hx => h x (List.mem_cons_of_mem _ hx))]

theorem schemeGo_no_colon : ∀ {l : List Char}, ':' ∉ l → schemeGo l = none := by
  intro l
  induction l with
  | nil => intro _; rfl
  | cons c rest ih =>
    intro h
    have hc : ¬(c = ':') := fun hc => h (hc ▸ List.mem_cons_self _ _)
    simp only [schemeGo, if_neg hc]
    split
    · exact ih (fun hr => h (List.mem_cons_of_mem _ hr))
    · rfl

theorem splitScheme_no_colon {host : List Char} (h : ':' ∉ host) :
    splitScheme host = host := by
  cases host with
  | nil => rfl
  | cons c rest =>
    simp only [splitScheme]
    split
    · rw [schemeGo_no_colon h]
    · rfl

theorem schemeGo_http (l : List Char) :
    schemeGo ('h' :: 't' :: 't' :: 'p' :: ':' :: l) = some l := rfl

theorem splitScheme_http (l : List Char) :
    splitScheme ('h' :: 't' :: 't' :: 'p' :: ':' :: l) = l := by
  simp only [splitScheme, schemeGo_http]
  rw [if_pos (by decide)]

theorem splitParams_clean {p : List Char} (h1 : '/' ∉ p) (h2 : ';' ∉ p) :
    splitParams p = p := by
  unfold splitParams
  have hseg : (p.reverse.takeWhile (fun c => ¬(c = '/'))).reverse = p := by
    rw [takeWhile_all (fun c hc => by
      simp only [decide_eq_true_eq]
      exact fun hcc => h1 (hcc ▸ List.mem_reverse.mp hc))]
    exact List.reverse_reverse p
  rw [hseg]
  dsimp only
  rw [Nat.sub_self, List.take_zero, List.nil_append]
  exact takeWhile_all (fun c hc => by
    simp only [decide_eq_true_eq]
    exact fun hcc => h2 (hcc ▸ hc))

theorem urlparse_http {host : List Char} (h2 : '/' ∉ host) (h3 : '?' ∉ host)
    (h4 : '#' ∉ host) :
    urlparseNlPath ('h' :: 't' :: 't' :: 'p' :: ':' :: '/' :: '/' :: host) = (host, []) := by
  unfold urlparseNlPath
  rw [splitScheme_http]
  rw [if_pos (by
    show listHasPre ['/', '/'] ('/' :: '/' :: host) = true
    exact listHasPre_append ['/', '/'] host)]
  dsimp only
  rw [show List.drop 2 ('/' :: '/' :: host) = host from rfl]
  have hnet : host.takeWhile (fun c => ¬(c = '/' ∨ c = '?' ∨ c = '#')) = host :=
    takeWhile_all (fun c hc => by
      simp only [decide_eq_true_eq]
      push_neg
      exact ⟨fun h => h2 (h ▸ hc), fun h => h3 (h ▸ hc), fun h => h4 (h ▸ hc)⟩)
  rw [hnet]
  rw [List.drop_length]
  rfl

theorem urlparse_bare {host : List Char} (h1 : ':' ∉ host) (h2 : '/' ∉ host)
    (h3 : '?' ∉ host) (h4 : '#' ∉ host) (h5 : ';' ∉ host) :
    urlparseNlPath host = ([], host) := by
  unfold urlparseNlPath
  rw [splitScheme_no_colon h1]
  rw [if_neg (by
    cases host with
    | nil => decide
    | cons c rest =>
      have hc : '/' ≠ c := fun h => h2 (h ▸ List.mem_cons_self _ _)
      rw [show (['/', '/'] : List Char) = '/' :: ['/'] from rfl, listHasPre_cons_of_ne hc]
      exact Bool.false_ne_true)]
  have htw : host.takeWhile (fun c => ¬(c = '?' ∨ c = '#')) = host :=
    takeWhile_all (fun c hc => by
      simp only [decide_eq_true_eq]
      push_neg
      exact ⟨fun h => h3 (h ▸ hc), fun h => h4 (h ▸ hc)⟩)
  rw [htw, splitParams_clean h2 h5]

theorem listHasPre_append_cancel (p q r : List Char) :
    listHasPre (p ++ q) (p ++ r) = listHasPre q r := by
  induction p with
  | nil => rfl
  | cons c cs ih => simp [listHasPre, ih]

theorem listHasPre_of_longer {p q s : List Char} (h : listHasPre (p ++ q) s = true) :
    listHasPre p s = true := by
  induction p generalizing s with
  | nil => rfl
  | cons c cs ih =>
    cases s with
    | nil => cases h
    | cons b bs =>
      simp only [List.cons_append, listHasPre, Bool.and_eq_true] at h ⊢
      exact ⟨h.1, ih h.2⟩

theorem listHasPre_iff_append {p s : List Char} :
    listHasPre p s = true ↔ ∃ r, s = p ++ r := by
  constructor
  · intro h
    induction p generalizing s with
    | nil => exact ⟨s, rfl⟩
    | cons c cs ih =>
      cases s with
      | nil => cases h
      | cons b bs =>
        simp only [listHasPre, Bool.and_eq_true, beq_iff_eq] at h
        obtain ⟨r, hr⟩ := ih h.2
        exact ⟨r, by rw [h.1, hr]; rfl⟩
  · rintro ⟨r, rfl⟩
    exact listHasPre_append p r

/-- C10 counterexample: the source strips only one leading `"www."`, so the
domain identifier of `www.www.example.com` is `www.example.com`, which
still has a leading `"www."` — "contains no leading www." fails. -/
theorem c10_counterexample :
    extrair_dominio "www.www.example.com" = "www.example.com" ∧
    strHasPre (extrair_dominio "www.www.example.com") "www." = true := by
  exact ⟨by decide, by decide⟩

/-- C10 (amended): for a URL `http://<host>` or a bare `<host>` (where the
host carries none of `:/?#;`), the directory identifier is the host with at
most one leading `"www."` removed; stripping is not iterated, so the result
starts with `"www."` exactly when the host started with `"www.www."`. -/
theorem c10_domain_normalization (host : String)
    (h1 : ':' ∉ host.data) (h2 : '/' ∉ host.data) (h3 : '?' ∉ host.data)
    (h4 : '#' ∉ host.data) (h5 : ';' ∉ host.data) :
    extrair_dominio ("http://" ++ host)
        = (if strHasPre host "www." then (⟨host.data.drop 4⟩ : String) else host) ∧
    extrair_dominio host
        = (if strHasPre host "www." then (⟨host.data.drop 4⟩ : String) else host) ∧
    strHasPre (extrair_dominio ("http://" ++ host)) "www." = strHasPre host "www.www." := by
  have hdata : ("http://" ++ host).data
      = 'h' :: 't' :: 't' :: 'p' :: ':' :: '/' :: '/' :: host.data := by
    rw [String.data_append]
    rfl
  have hhttp : extrair_dominio ("http://" ++ host)
      = (if strHasPre host "www." then (⟨host.data.drop 4⟩ : String) else host) := by
    unfold extrair_dominio
    rw [hdata, urlparse_http h2 h3 h4]
    dsimp only
    have hdom : (if host.data.isEmpty then (⟨[]⟩ : String) else (⟨host.data⟩ : String))
        = host := by
      split
      · rename_i h
        have hd : host.data = [] := by simpa using h
        exact String.ext hd.symm
      · rfl
    rw [hdom]
  have hbare : extrair_dominio host
      = (if strHasPre host "www." then (⟨host.data.drop 4⟩ : String) else host) := by
    unfold extrair_dominio
    rw [urlparse_bare h1 h2 h3 h4 h5]
    dsimp only
    rfl
  refine ⟨hhttp, hbare, ?_⟩
  rw [hhttp]
  by_cases hw : strHasPre host "www." = true
  · rw [if_pos hw]
    obtain ⟨r, hr⟩ := listHasPre_iff_append.mp hw
    unfold strHasPre at hw ⊢
    have hdrop : (⟨host.data.drop 4⟩ : String).data = r := by
      show host.data.drop 4 = r
      rw [hr]
      rfl
    rw [hdrop, hr]
    have hsplit : ("www.www." : String).data = ("www." : String).data ++ ("www." : String).data := rfl
    rw [hsplit, listHasPre_append_cancel]
  · rw [if_neg hw]
    unfold strHasPre at hw ⊢
    have hsplit : ("www.www." : String).data
        = ("www." : String).data ++ ("www." : String).data := rfl
    have hfalse : listHasPre ("www." : String).data host.data = false :=
      Bool.eq_false_iff.mpr hw
    have h2w : listHasPre ("www.www." : String).data host.data = false := by
      rw [Bool.eq_false_iff]
      intro hcontra
      rw [hsplit] at hcontra
      exact hw (listHasPre_of_longer hcontra)
    rw [hfalse, h2w]

/-- C10 witness: for the host `www.www.exemplo.com` both the `http://` form
and the bare form map to `www.exemplo.com`, and the surviving `www.` prefix
is exactly the doubled one of the input. -/
theorem c10_domain_normalization_witness :
    ':' ∉ ("www.www.exemplo.com" : String).data ∧
    extrair_dominio ("http://" ++ "www.www.exemplo.com")
      = (if strHasPre "www.www.exemplo.com" "www."
          then (⟨("www.www.exemplo.com" : String).data.drop 4⟩ : String)
          else "www.www.exemplo.com") ∧
    extrair_dominio "www.www.exemplo.com"
      = (if strHasPre "www.www.exemplo.com" "www."
          then (⟨("www.www.exemplo.com" : String).data.drop 4⟩ : String)
          else "www.www.exemplo.com") ∧
    strHasPre (extrair_dominio ("http://" ++ "www.www.exemplo.com")) "www."
      = strHasPre "www.www.exemplo.com" "www.www." := by
  have h := c10_domain_normalization "www.www.exemplo.com"
    (by decide) (by decide) (by decide) (by decide) (by decide)
  exact ⟨by decide, h.1, h.2.1, h.2.2⟩

/-! ### Claim C5: density of sequence indices -/

theorem names_denseFrom (hoje : String) :
    ∀ es i, (denseFrom hoje i es).map (fun e => e.name)
      = (List.range' i es.length).map (fileName hoje) := by
  intro es
  induction es with
  | nil => intro i; rfl
  | cons q es2 ih =>
    intro i
    obtain ⟨c, t⟩ := q
    simp only [denseFrom, List.map_cons, List.length_cons, List.range'_succ, ih (i + 1)]

theorem runSaves_dense (hoje : String) :
    ∀ calls es, ∃ es2, runSaves hoje (denseFS hoje es) calls = denseFS hoje es2 := by
  intro calls
  induction calls with
  | nil => intro es; exact ⟨es, rfl⟩
  | cons q calls2 ih =>
    intro es
    obtain ⟨t, c⟩ := q
    rcases List.eq_nil_or_concat es with rfl | ⟨as, b, rfl⟩
    · simp only [runSaves]
      rw [salvar_dense_nil hoje t c]
      exact ih [(c, t)]
    · obtain ⟨cl, tl⟩ := b
      simp only [List.concat_eq_append, runSaves]
      rw [salvar_dense_snoc hoje as cl tl t c]
      by_cases h1 : t - tl < 600
      · rw [if_pos h1]
        exact ih (as ++ [(cl, tl)])
      · rw [if_neg h1]
        by_cases h2 : calcular_hash cl = calcular_hash c
        · rw [if_pos h2]
          exact ih (as ++ [(cl, tl)])
        · rw [if_neg h2]
          exact ih (as ++ [(cl, tl), (c, t)])

/-- C5: starting from an empty domain directory, any same-day sequence of
saves leaves a dense directory: the files on disk are exactly
`fileName hoje 0, …, fileName hoje (m-1)` for some `m` (index 0 is the
unsuffixed name), however many throttled or hash-identical no-op saves
occur in between; and on such a state a save allocates a new index iff the
re-check interval has elapsed and the new content's MD5 digest differs from
the most recent snapshot's. -/
theorem c5_dense_invariant (hoje : String) (calls : List (Int × Bytes)) :
    (∃ es, runSaves hoje [] calls = denseFS hoje es ∧
      (runSaves hoje [] calls).map (fun e => e.name)
        = (List.range es.length).map (fileName hoje)) ∧
    (∀ (es : List (Bytes × Int)) (cl : Bytes) (tl now : Int) (c : Bytes),
      (∃ nome cnt fs2, salvar_conteudo (denseFS hoje (es ++ [(cl, tl)])) hoje now (some c)
          = .ok (some nome, cnt, fs2))
        ↔ (¬(now - tl < 600) ∧ calcular_hash cl ≠ calcular_hash c)) := by
  constructor
  · obtain ⟨es2, hes2⟩ := runSaves_dense hoje calls []
    have hrun : runSaves hoje [] calls = denseFS hoje es2 := hes2
    refine ⟨es2, hrun, ?_⟩
    rw [hrun]
    rw [show denseFS hoje es2 = denseFrom hoje 0 es2 from rfl, names_denseFrom hoje es2 0,
      List.range_eq_range']
  · intro es cl tl now c
    rw [salvar_dense_snoc]
    constructor
    · rintro ⟨nome, cnt, fs2, h⟩
      by_cases h1 : now - tl < 600
      · rw [if_pos h1] at h
        simp at h
      · by_cases h2 : calcular_hash cl = calcular_hash c
        · rw [if_neg h1, if_pos h2] at h
          simp at h
        · exact ⟨h1, h2⟩
    · rintro ⟨h1, h2⟩
      rw [if_neg h1, if_neg h2]
      exact ⟨_, _, _, rfl⟩
